import Mathlib

/-
Verification of the device-side assertion core in
c10/cuda/CUDADeviceAssertion.h.

Buffers of characters are modelled as total functions from indices to
byte values, with 0 playing the role of the null terminator.  The two
compile-time constants C10_CUDA_DEVICE_SIDE_MAX_STR_LEN (written N) and
C10_CUDA_DEVICE_SIDE_ASSERTION_COUNT (written CAP) are declared outside
the given source, so they are kept as parameters throughout.
-/

namespace CUDADeviceAssertion

/-- State of the copy loop of dstrcpy.  Besides the destination buffer
and the loop index, the model records the list of source indices that
were read and the list of destination indices that were written, so that
absence of out-of-range accesses can be stated. -/
structure CopyState where
  dst : Nat → Nat
  i : Nat
  reads : List Nat
  ws : List Nat

/-- The loop `for (; src[i] != 0 && i < N-1; i++) dst[i] = src[i];` of
dstrcpy.  The C condition evaluates `src[i]` first and only then the
bound `i < N-1`, so the model records a read of index `i` even on the
final bound-failing check.  `fuel` stands for `N-1-i`; the loop runs
while `fuel` is positive and the byte read is not the terminator. -/
def copyLoopTr (src : Nat → Nat) (dst : Nat → Nat) (i : Nat) (fuel : Nat)
    (rs wl : List Nat) : CopyState :=
  match fuel with
  | 0 => ⟨dst, i, rs ++ [i], wl⟩
  | fuel + 1 =>
    if src i = 0 then ⟨dst, i, rs ++ [i], wl⟩
    else copyLoopTr src (Function.update dst i (src i)) (i + 1) fuel
      (rs ++ [i]) (wl ++ [i])

/-- The full run of dstrcpy starting at index 0 with bound N-1. -/
def dstrcpyRun (N : Nat) (dst src : Nat → Nat) : CopyState :=
  copyLoopTr src dst 0 (N - 1) [] []

/-- dstrcpy from the source: run the bounded copy loop; afterwards, if
the loop index reached N-1 (no terminator found within the bound), write
a null byte at destination index 0 (`*dst = 0` in the source). -/
def dstrcpy (N : Nat) (dst src : Nat → Nat) : Nat → Nat :=
  if (dstrcpyRun N dst src).i = N - 1 then
    Function.update (dstrcpyRun N dst src).dst 0 0
  else
    (dstrcpyRun N dst src).dst

/-- Source bytes of the scenario string that fits: two characters and a
terminator at index 2 (capacity 8 in the scenario). -/
def c2src : Nat → Nat := fun i => if i = 0 then 104 else if i = 1 then 105 else 0

/-- A destination buffer holding only nonzero bytes, so that any byte
the copy leaves untouched is visibly not a null terminator. -/
def c2dst : Nat → Nat := fun _ => 1

/-- A source with no terminator anywhere. -/
def c3src : Nat → Nat := fun _ => 1

/-- A destination buffer of sevens for the truncation scenario. -/
def c3dst : Nat → Nat := fun _ => 7

/-- One slot of the shared buffer (struct DeviceAssertionData).  The
three string fields are fixed-capacity character buffers; the block and
thread coordinates are arrays of three unsigned integers, modelled as
functions from the coordinate index. -/
structure DeviceAssertionData where
  assertion_msg : Nat → Nat
  filename : Nat → Nat
  function_name : Nat → Nat
  line_number : Int
  caller : Nat
  block_id : Nat → Nat
  thread_id : Nat → Nat

/-- Modelled from the spec: struct DeviceAssertionsData is declared in a
header outside the given source.  Per the spec it holds the atomic
counter assertion_count, the atomic counter assertion_failure_written,
and a record array of capacity C10_CUDA_DEVICE_SIDE_ASSERTION_COUNT.
The array is modelled as a total function from slot indices so that a
write past the declared capacity remains expressible (in C it would be
an out-of-bounds write into adjacent memory). -/
structure DeviceAssertionsData where
  assertion_count : Nat
  assertion_failure_written : Nat
  assertions : Nat → DeviceAssertionData

/-- The CUDA dim3 coordinate triple. -/
structure Dim3 where
  x : Nat
  y : Nat
  z : Nat

/-- Observable events of one call to dsa_add_new_assertion_failure:
the atomic increment of assertion_count (carrying its pre-increment
value), a write to one field of one record slot (fields numbered 0-10
in source order: msg, filename, function_name, line_number, caller,
block_id 0-2, thread_id 0-2), and the atomic increment of
assertion_failure_written (carrying its pre-increment value). -/
inductive DsaEvent
  | incCount (old : Nat)
  | writeSlot (slot : Nat) (field : Nat)
  | incWritten (old : Nat)
deriving DecidableEq

/-- Result of one call: the buffer state it leaves behind, the events
it performed, and whether it entered the busy-wait with a guard that a
single thread alone can never falsify (in single-call semantics the
loop body changes nothing, so a true guard means the loop spins without
returning; the state shown is the state at loop entry). -/
structure DsaResult where
  state : Option DeviceAssertionsData
  trace : List DsaEvent
  spun : Bool

/-- Predicate picking out the publication increment among the events. -/
def isIncWritten : DsaEvent → Bool
  | DsaEvent.incWritten _ => true
  | _ => false

/-- dsa_add_new_assertion_failure from the source.  A null
assertions_data pointer is `none`.  The reserved index nid is the
pre-increment value of assertion_count; the overflow branch is taken
when `nid > CAP` exactly as in the source (note: `>`––not `>=`).  On
the write branch the record fields are filled in source order and
assertion_failure_written is incremented afterwards. -/
def dsa_add_new_assertion_failure (CAP N : Nat)
    (assertions_data : Option DeviceAssertionsData)
    (assertion_msg0 filename0 function_name0 : Nat → Nat)
    (line_number0 : Int) (caller0 : Nat)
    (block_id thread_id : Dim3) : DsaResult :=
  match assertions_data with
  | none => { state := none, trace := [], spun := false }
  | some b =>
    if CAP < b.assertion_count then
      { state := some { b with assertion_count := b.assertion_count + 1 },
        trace := [DsaEvent.incCount b.assertion_count],
        spun := decide (b.assertion_failure_written < b.assertion_count + 1) }
    else
      { state := some
          { assertion_count := b.assertion_count + 1,
            assertion_failure_written := b.assertion_failure_written + 1,
            assertions := Function.update b.assertions b.assertion_count
              { assertion_msg :=
                  dstrcpy N (b.assertions b.assertion_count).assertion_msg
                    assertion_msg0,
                filename :=
                  dstrcpy N (b.assertions b.assertion_count).filename filename0,
                function_name :=
                  dstrcpy N (b.assertions b.assertion_count).function_name
                    function_name0,
                line_number := line_number0,
                caller := caller0,
                block_id := fun j =>
                  if j = 0 then block_id.x else if j = 1 then block_id.y
                  else if j = 2 then block_id.z
                  else (b.assertions b.assertion_count).block_id j,
                thread_id := fun j =>
                  if j = 0 then thread_id.x else if j = 1 then thread_id.y
                  else if j = 2 then thread_id.z
                  else (b.assertions b.assertion_count).thread_id j } },
        trace := DsaEvent.incCount b.assertion_count ::
          ((List.range 11).map (DsaEvent.writeSlot b.assertion_count) ++
            [DsaEvent.incWritten b.assertion_failure_written]),
        spun := false }

/-- A zeroed record slot, as left by the host zero-initialisation. -/
def zRecord : DeviceAssertionData :=
  ⟨fun _ => 0, fun _ => 0, fun _ => 0, 0, 0, fun _ => 0, fun _ => 0⟩

/-- A zero-initialised buffer, as supplied by the host before launch. -/
def zBuffer : DeviceAssertionsData := ⟨0, 0, fun _ => zRecord⟩

/-- The origin coordinate triple. -/
def dim0 : Dim3 := ⟨0, 0, 0⟩

/-- k successive calls to dsa_add_new_assertion_failure on one buffer
(one valid interleaving of k threads: each thread runs its call to the
point where the single-thread semantics is stuck or done before the
next starts).  Returns the final buffer and, in call order, each call's
event trace and whether it got stuck in the busy-wait. -/
def seqRun (CAP N : Nat) : Nat → DeviceAssertionsData →
    DeviceAssertionsData × List (List DsaEvent × Bool)
  | 0, b => (b, [])
  | Nat.succ k, b =>
    match dsa_add_new_assertion_failure CAP N (some b) (fun _ => 0)
        (fun _ => 0) (fun _ => 0) 0 0 dim0 dim0 with
    | ⟨some b2, tr, sp⟩ =>
      ((seqRun CAP N k b2).1, (tr, sp) :: (seqRun CAP N k b2).2)
    | ⟨none, _, _⟩ => (b, [])

/-! Fine-grained concurrent model of dsa_add_new_assertion_failure: an
arbitrary number of threads each execute the body once, with steps of
distinct threads interleaved arbitrarily.  Each thread performs, in
program order: the atomic reservation (which also decides the branch,
since the branch reads only the local nid), then either the eleven
field writes followed by the publication increment, or repeated
evaluations of the busy-wait guard. -/

/-- Control point of one thread inside the call body.  `writing k`
means k of the eleven field assignments are done; `doneW` is reached
through the write path, `doneS` through the overflow path. -/
inductive TPC
  | start
  | writing (k : Nat)
  | spinning
  | doneW
  | doneS
deriving DecidableEq

/-- One thread: its control point and its reserved index nid
(meaningless until it leaves `start`). -/
structure ThreadSt where
  pc : TPC
  nid : Nat
deriving DecidableEq

/-- A global configuration: the two shared counters, the log of
(slot, field) record writes performed so far, and the thread states. -/
structure CConfig where
  assertion_count : Nat
  assertion_failure_written : Nat
  wlog : List (Nat × Nat)
  th : List ThreadSt
deriving DecidableEq

/-- One interleaved step, by the thread at position t.  The branch test
is `CAP < nid` with nid the pre-increment counter value, exactly the
`nid > C10_CUDA_DEVICE_SIDE_ASSERTION_COUNT` test of the source.  The
busy-wait contributes two kinds of steps: a guard evaluation that finds
`assertion_failure_written < assertion_count` and loops (state
unchanged), and a guard evaluation that finds the opposite and exits. -/
inductive CStep (CAP : Nat) : CConfig → CConfig → Prop
  | reserve (c : CConfig) (t : Nat) (s : ThreadSt)
      (hget : c.th.get? t = some s) (hpc : s.pc = TPC.start) :
      CStep CAP c
        { assertion_count := c.assertion_count + 1,
          assertion_failure_written := c.assertion_failure_written,
          wlog := c.wlog,
          th := c.th.set t
            { pc := if CAP < c.assertion_count then TPC.spinning
                else TPC.writing 0,
              nid := c.assertion_count } }
  | fieldWrite (c : CConfig) (t : Nat) (s : ThreadSt) (k : Nat)
      (hget : c.th.get? t = some s) (hpc : s.pc = TPC.writing k)
      (hk : k < 11) :
      CStep CAP c
        { c with wlog := c.wlog ++ [(s.nid, k)],
                 th := c.th.set t { pc := TPC.writing (k + 1), nid := s.nid } }
  | publishW (c : CConfig) (t : Nat) (s : ThreadSt)
      (hget : c.th.get? t = some s) (hpc : s.pc = TPC.writing 11) :
      CStep CAP c
        { c with
            assertion_failure_written := c.assertion_failure_written + 1,
            th := c.th.set t { pc := TPC.doneW, nid := s.nid } }
  | spinIter (c : CConfig) (t : Nat) (s : ThreadSt)
      (hget : c.th.get? t = some s) (hpc : s.pc = TPC.spinning)
      (hlt : c.assertion_failure_written < c.assertion_count) :
      CStep CAP c c
  | spinExit (c : CConfig) (t : Nat) (s : ThreadSt)
      (hget : c.th.get? t = some s) (hpc : s.pc = TPC.spinning)
      (hge : ¬ c.assertion_failure_written < c.assertion_count) :
      CStep CAP c
        { c with th := c.th.set t { pc := TPC.doneS, nid := s.nid } }

/-- Reachability: reflexive-transitive closure of the step relation. -/
inductive Reaches (CAP : Nat) : CConfig → CConfig → Prop
  | refl (c : CConfig) : Reaches CAP c c
  | tail {a b c : CConfig} : Reaches CAP a b → CStep CAP b c →
      Reaches CAP a c

/-- Boolean test: this thread has executed its reservation. -/
def startedB (s : ThreadSt) : Bool := decide (s.pc ≠ TPC.start)

/-- Boolean test: this thread has performed its publication increment. -/
def doneWB (s : ThreadSt) : Bool := decide (s.pc = TPC.doneW)

/-- The coupling invariant of the concurrent model: assertion_count is
the number of threads that have executed their reservation, and
assertion_failure_written is the number of threads that have executed
their publication increment. -/
def CInv (c : CConfig) : Prop :=
  c.assertion_count = c.th.countP startedB ∧
  c.assertion_failure_written = c.th.countP doneWB

/-- The initial configuration for n threads on a zeroed buffer. -/
def initCfg (n : Nat) : CConfig :=
  ⟨0, 0, [], List.replicate n ⟨TPC.start, 0⟩⟩

/-- A configuration of the capacity-4, six-thread scenario in which
threads 0-4 have reserved slots 0-4 and are about to write, while
thread 5 reserved index 5 and entered the busy-wait. -/
def c5mid : CConfig :=
  ⟨6, 0, [],
    [⟨TPC.writing 0, 0⟩, ⟨TPC.writing 0, 1⟩, ⟨TPC.writing 0, 2⟩,
     ⟨TPC.writing 0, 3⟩, ⟨TPC.writing 0, 4⟩, ⟨TPC.spinning, 5⟩]⟩

/-- A two-thread configuration after both reservations, used to witness
the counting theorem. -/
def c8cfg : CConfig :=
  ⟨2, 0, [], [⟨TPC.writing 0, 0⟩, ⟨TPC.writing 0, 1⟩]⟩

/-- A buffer whose count already exceeds a capacity of 4, used to
witness the overflow-branch frame theorem. -/
def b5Buffer : DeviceAssertionsData := ⟨5, 0, fun _ => zRecord⟩

end CUDADeviceAssertion

namespace CUDADeviceAssertion

example : dstrcpy 8 c2dst c2src 0 = 104 := by decide
example : dstrcpy 8 c2dst c2src 1 = 105 := by decide
example : dstrcpy 8 c2dst c2src 2 = 1 := by decide
example : dstrcpy 8 c3dst c3src 0 = 0 := by decide
example : dstrcpy 8 c3dst c3src 1 = 1 := by decide
example : dstrcpy 8 c3dst c3src 6 = 1 := by decide
example : dstrcpy 8 c3dst c3src 7 = 7 := by decide
example : (dstrcpyRun 8 c2dst c2src).reads = [0, 1, 2] := by decide
example : (dstrcpyRun 8 c3dst c3src).reads = [0, 1, 2, 3, 4, 5, 6, 7] := by decide
example : (dstrcpyRun 8 c3dst c3src).ws = [0, 1, 2, 3, 4, 5, 6] := by decide

example : (seqRun 4 8 5 zBuffer).1.assertion_count = 5 := by decide
example : (seqRun 4 8 5 zBuffer).1.assertion_failure_written = 5 := by decide
example : (seqRun 4 8 6 zBuffer).1.assertion_count = 6 := by decide
example : (seqRun 4 8 6 zBuffer).1.assertion_failure_written = 5 := by decide
example : (seqRun 4 8 6 zBuffer).2.map Prod.snd =
    [false, false, false, false, false, true] := by decide
example : DsaEvent.writeSlot 4 0 ∈
    ((seqRun 4 8 5 zBuffer).2.map Prod.fst).flatten := by
  decide

/-! List helpers used by the invariant proofs. -/

theorem countP_set_acc {α : Type} (p : α → Bool) :
    ∀ (l : List α) (t : Nat) (s v : α), l.get? t = some s →
      (l.set t v).countP p + (if p s then 1 else 0) =
        l.countP p + (if p v then 1 else 0) := by
  intro l
  induction l with
  | nil => intro t s v h; simp at h
  | cons a tl ih =>
    intro t s v h
    cases t with
    | zero =>
      simp only [List.get?] at h
      injection h with h
      subst h
      simp only [List.set, List.countP_cons]
      omega
    | succ t =>
      simp only [List.get?] at h
      have := ih t s v h
      simp only [List.set, List.countP_cons]
      omega

theorem mem_of_getq {α : Type} :
    ∀ {l : List α} {t : Nat} {s : α}, l.get? t = some s → s ∈ l := by
  intro l
  induction l with
  | nil => intro t s h; simp at h
  | cons a tl ih =>
    intro t s h
    cases t with
    | zero =>
      simp only [List.get?] at h
      injection h with h
      subst h
      exact List.mem_cons_self a tl
    | succ t =>
      simp only [List.get?] at h
      exact List.mem_cons_of_mem a (ih h)

theorem getq_set_ne {α : Type} (v : α) :
    ∀ (l : List α) (u t : Nat), u ≠ t →
      (l.set u v).get? t = l.get? t := by
  intro l
  induction l with
  | nil => intro u t _; simp
  | cons a tl ih =>
    intro u t hne
    cases u with
    | zero =>
      cases t with
      | zero => exact absurd rfl hne
      | succ t => simp [List.set, List.get?]
    | succ u =>
      cases t with
      | zero => simp [List.set, List.get?]
      | succ t =>
        simp only [List.set, List.get?]
        exact ih u t (fun h => hne (congrArg Nat.succ h))

theorem countP_lt_strict {α : Type} (p q : α → Bool) :
    ∀ (l : List α) (x : α), x ∈ l → q x = true → p x = false →
      (∀ a ∈ l, p a = true → q a = true) →
      l.countP p < l.countP q := by
  intro l
  induction l with
  | nil => intro x hx; simp at hx
  | cons a tl ih =>
    intro x hx hq hp himp
    rcases List.mem_cons.mp hx with h | h
    · subst h
      have hmono : tl.countP p ≤ tl.countP q :=
        List.countP_mono_left (fun a ha hpa => himp a (List.mem_cons_of_mem _ ha) hpa)
      simp only [List.countP_cons, hp, hq]
      simp
      omega
    · have hlt := ih x h hq hp
        (fun a ha hpa => himp a (List.mem_cons_of_mem _ ha) hpa)
      have hhead : p a = true → q a = true := himp a (List.mem_cons_self a tl)
      simp only [List.countP_cons]
      cases hpa : p a with
      | false => simp; omega
      | true =>
        have hqa := hhead hpa
        simp [hqa]
        omega

theorem countP_replicate_zero {α : Type} (p : α → Bool) (a : α)
    (h : p a = false) : ∀ n, (List.replicate n a).countP p = 0 := by
  intro n
  induction n with
  | zero => simp
  | succ n ih => simp [List.replicate_succ, List.countP_cons, h, ih]

/-! Characterisation of the dstrcpy copy loop. -/

theorem copyLoopTr_no_nul (src : Nat → Nat) :
    ∀ (fuel : Nat) (dst : Nat → Nat) (i : Nat) (rs wl : List Nat),
      (∀ k, i ≤ k → k < i + fuel → src k ≠ 0) →
      (copyLoopTr src dst i fuel rs wl).i = i + fuel ∧
      (∀ j, j < i → (copyLoopTr src dst i fuel rs wl).dst j = dst j) ∧
      (∀ j, i ≤ j → j < i + fuel →
        (copyLoopTr src dst i fuel rs wl).dst j = src j) ∧
      (∀ j, i + fuel ≤ j → (copyLoopTr src dst i fuel rs wl).dst j = dst j) := by
  intro fuel
  induction fuel with
  | zero =>
    intro dst i rs wl _
    refine ⟨rfl, fun j _ => rfl, fun j h1 h2 => absurd h2 (by omega), fun j _ => rfl⟩
  | succ f ih =>
    intro dst i rs wl h
    have hsi : src i ≠ 0 := h i (Nat.le_refl i) (by omega)
    simp only [copyLoopTr, if_neg hsi]
    have hrec := ih (Function.update dst i (src i)) (i + 1) (rs ++ [i]) (wl ++ [i])
      (fun k hk1 hk2 => h k (by omega) (by omega))
    obtain ⟨h1, h2, h3, h4⟩ := hrec
    refine ⟨by omega, ?_, ?_, ?_⟩
    · intro j hj
      rw [h2 j (by omega)]
      exact Function.update_noteq (by omega) _ dst
    · intro j hj1 hj2
      rcases Nat.lt_or_ge j (i + 1) with hj | hj
      · have hji : j = i := by omega
        subst hji
        rw [h2 j (by omega)]
        exact Function.update_same _ _ _
      · exact h3 j hj (by omega)
    · intro j hj
      rw [h4 j (by omega)]
      exact Function.update_noteq (by omega) _ dst

theorem copyLoopTr_reads (src : Nat → Nat) :
    ∀ (fuel : Nat) (dst : Nat → Nat) (i : Nat) (rs wl : List Nat),
      ∀ x ∈ (copyLoopTr src dst i fuel rs wl).reads,
        x ∈ rs ∨ (i ≤ x ∧ x ≤ i + fuel ∧ ∀ k, i ≤ k → k < x → src k ≠ 0) := by
  intro fuel
  induction fuel with
  | zero =>
    intro dst i rs wl x hx
    rcases List.mem_append.mp hx with h | h
    · exact Or.inl h
    · have : x = i := List.mem_singleton.mp h
      subst this
      exact Or.inr ⟨Nat.le_refl _, by omega, fun k hk1 hk2 => absurd hk2 (by omega)⟩
  | succ f ih =>
    intro dst i rs wl x hx
    by_cases hsi : src i = 0
    · simp only [copyLoopTr, if_pos hsi] at hx
      rcases List.mem_append.mp hx with h | h
      · exact Or.inl h
      · have : x = i := List.mem_singleton.mp h
        subst this
        exact Or.inr ⟨Nat.le_refl _, by omega, fun k hk1 hk2 => absurd hk2 (by omega)⟩
    · simp only [copyLoopTr, if_neg hsi] at hx
      rcases ih (Function.update dst i (src i)) (i + 1) (rs ++ [i]) (wl ++ [i]) x hx
        with h | ⟨ha, hb, hc⟩
      · rcases List.mem_append.mp h with h | h
        · exact Or.inl h
        · have : x = i := List.mem_singleton.mp h
          subst this
          exact Or.inr ⟨Nat.le_refl _, by omega, fun k hk1 hk2 => absurd hk2 (by omega)⟩
      · refine Or.inr ⟨by omega, by omega, fun k hk1 hk2 => ?_⟩
        rcases Nat.lt_or_ge k (i + 1) with hk | hk
        · have : k = i := by omega
          subst this; exact hsi
        · exact hc k hk hk2

theorem copyLoopTr_ws_bound (src : Nat → Nat) :
    ∀ (fuel : Nat) (dst : Nat → Nat) (i : Nat) (rs wl : List Nat),
      ∀ x ∈ (copyLoopTr src dst i fuel rs wl).ws,
        x ∈ wl ∨ (i ≤ x ∧ x < i + fuel) := by
  intro fuel
  induction fuel with
  | zero => intro dst i rs wl x hx; exact Or.inl hx
  | succ f ih =>
    intro dst i rs wl x hx
    by_cases hsi : src i = 0
    · simp only [copyLoopTr, if_pos hsi] at hx
      exact Or.inl hx
    · simp only [copyLoopTr, if_neg hsi] at hx
      rcases ih (Function.update dst i (src i)) (i + 1) (rs ++ [i]) (wl ++ [i]) x hx
        with h | ⟨ha, hb⟩
      · rcases List.mem_append.mp h with h | h
        · exact Or.inl h
        · have : x = i := List.mem_singleton.mp h
          subst this
          exact Or.inr ⟨Nat.le_refl _, by omega⟩
      · exact Or.inr ⟨by omega, by omega⟩

theorem copyLoopTr_ws_mono (src : Nat → Nat) :
    ∀ (fuel : Nat) (dst : Nat → Nat) (i : Nat) (rs wl : List Nat),
      ∀ x ∈ wl, x ∈ (copyLoopTr src dst i fuel rs wl).ws := by
  intro fuel
  induction fuel with
  | zero => intro dst i rs wl x hx; exact hx
  | succ f ih =>
    intro dst i rs wl x hx
    by_cases hsi : src i = 0
    · simp only [copyLoopTr, if_pos hsi]; exact hx
    · simp only [copyLoopTr, if_neg hsi]
      exact ih _ _ _ _ x (List.mem_append.mpr (Or.inl hx))

theorem copyLoopTr_frame (src : Nat → Nat) :
    ∀ (fuel : Nat) (dst : Nat → Nat) (i : Nat) (rs wl : List Nat) (j : Nat),
      (copyLoopTr src dst i fuel rs wl).dst j ≠ dst j →
      j ∈ (copyLoopTr src dst i fuel rs wl).ws := by
  intro fuel
  induction fuel with
  | zero => intro dst i rs wl j hj; exact absurd rfl hj
  | succ f ih =>
    intro dst i rs wl j hj
    by_cases hsi : src i = 0
    · simp only [copyLoopTr, if_pos hsi] at hj ⊢
      exact absurd rfl hj
    · simp only [copyLoopTr, if_neg hsi] at hj ⊢
      by_cases hupd : (copyLoopTr src (Function.update dst i (src i)) (i + 1) f
          (rs ++ [i]) (wl ++ [i])).dst j = Function.update dst i (src i) j
      · have hne : Function.update dst i (src i) j ≠ dst j := by
          rw [← hupd]; exact hj
        have hji : j = i := by
          by_contra hji
          exact hne (Function.update_noteq hji _ dst)
        subst hji
        exact copyLoopTr_ws_mono src f _ _ _ _ j
          (List.mem_append.mpr (Or.inr (List.mem_singleton.mpr rfl)))
      · exact ih _ _ _ _ j hupd

/-! Invariants of the concurrent model. -/

theorem CStep_length {CAP : Nat} {c c2 : CConfig} (h : CStep CAP c c2) :
    c2.th.length = c.th.length := by
  cases h <;> simp [List.length_set]

theorem Reaches_length {CAP : Nat} {c c2 : CConfig} (h : Reaches CAP c c2) :
    c2.th.length = c.th.length := by
  induction h with
  | refl => rfl
  | tail _ hs ih => rw [CStep_length hs, ih]

theorem CInv_step {CAP : Nat} {c c2 : CConfig} (h : CStep CAP c c2)
    (hI : CInv c) : CInv c2 := by
  obtain ⟨h1, h2⟩ := hI
  cases h with
  | reserve t s hget hpc =>
    have ha := countP_set_acc startedB c.th t s
      ⟨if CAP < c.assertion_count then TPC.spinning else TPC.writing 0,
        c.assertion_count⟩ hget
    have hb := countP_set_acc doneWB c.th t s
      ⟨if CAP < c.assertion_count then TPC.spinning else TPC.writing 0,
        c.assertion_count⟩ hget
    have hs1 : startedB s = false := by simp [startedB, hpc]
    have hs2 : doneWB s = false := by simp [doneWB, hpc]
    have hv1 : startedB ⟨if CAP < c.assertion_count then TPC.spinning
        else TPC.writing 0, c.assertion_count⟩ = true := by
      by_cases hc : CAP < c.assertion_count <;> simp [startedB, hc]
    have hv2 : doneWB ⟨if CAP < c.assertion_count then TPC.spinning
        else TPC.writing 0, c.assertion_count⟩ = false := by
      by_cases hc : CAP < c.assertion_count <;> simp [doneWB, hc]
    rw [hs1, hv1] at ha
    rw [hs2, hv2] at hb
    simp at ha hb
    refine ⟨?_, ?_⟩ <;> simp only [] <;> omega
  | fieldWrite t s k hget hpc hk =>
    have ha := countP_set_acc startedB c.th t s
      ⟨TPC.writing (k + 1), s.nid⟩ hget
    have hb := countP_set_acc doneWB c.th t s
      ⟨TPC.writing (k + 1), s.nid⟩ hget
    have hs1 : startedB s = true := by simp [startedB, hpc]
    have hs2 : doneWB s = false := by simp [doneWB, hpc]
    have hv1 : startedB ⟨TPC.writing (k + 1), s.nid⟩ = true := by
      simp [startedB]
    have hv2 : doneWB ⟨TPC.writing (k + 1), s.nid⟩ = false := by
      simp [doneWB]
    rw [hs1, hv1] at ha
    rw [hs2, hv2] at hb
    simp at ha hb
    refine ⟨?_, ?_⟩ <;> simp only [] <;> omega
  | publishW t s hget hpc =>
    have ha := countP_set_acc startedB c.th t s ⟨TPC.doneW, s.nid⟩ hget
    have hb := countP_set_acc doneWB c.th t s ⟨TPC.doneW, s.nid⟩ hget
    have hs1 : startedB s = true := by simp [startedB, hpc]
    have hs2 : doneWB s = false := by simp [doneWB, hpc]
    have hv1 : startedB ⟨TPC.doneW, s.nid⟩ = true := by simp [startedB]
    have hv2 : doneWB ⟨TPC.doneW, s.nid⟩ = true := by simp [doneWB]
    rw [hs1, hv1] at ha
    rw [hs2, hv2] at hb
    simp at ha hb
    refine ⟨?_, ?_⟩ <;> simp only [] <;> omega
  | spinIter t s hget hpc hlt => exact ⟨h1, h2⟩
  | spinExit t s hget hpc hge =>
    have ha := countP_set_acc startedB c.th t s ⟨TPC.doneS, s.nid⟩ hget
    have hb := countP_set_acc doneWB c.th t s ⟨TPC.doneS, s.nid⟩ hget
    have hs1 : startedB s = true := by simp [startedB, hpc]
    have hs2 : doneWB s = false := by simp [doneWB, hpc]
    have hv1 : startedB ⟨TPC.doneS, s.nid⟩ = true := by simp [startedB]
    have hv2 : doneWB ⟨TPC.doneS, s.nid⟩ = false := by simp [doneWB]
    rw [hs1, hv1] at ha
    rw [hs2, hv2] at hb
    simp at ha hb
    refine ⟨?_, ?_⟩ <;> simp only [] <;> omega

theorem CInv_reaches {CAP : Nat} {c0 c : CConfig} (hI : CInv c0)
    (hr : Reaches CAP c0 c) : CInv c := by
  induction hr with
  | refl => exact hI
  | tail _ hs ih => exact CInv_step hs ih

theorem CInv_initCfg (n : Nat) : CInv (initCfg n) :=
  ⟨(countP_replicate_zero startedB ⟨TPC.start, 0⟩ (by simp [startedB]) n).symm,
   (countP_replicate_zero doneWB ⟨TPC.start, 0⟩ (by simp [doneWB]) n).symm⟩

theorem spin_guard {c : CConfig} (hI : CInv c) {t : Nat} {s : ThreadSt}
    (hget : c.th.get? t = some s) (hpc : s.pc = TPC.spinning) :
    c.assertion_failure_written < c.assertion_count := by
  obtain ⟨h1, h2⟩ := hI
  have hmem : s ∈ c.th := mem_of_getq hget
  have hlt := countP_lt_strict doneWB startedB c.th s hmem
    (by simp [startedB, hpc]) (by simp [doneWB, hpc])
    (fun a _ hpa => by
      have : a.pc = TPC.doneW := by simpa [doneWB] using hpa
      simp [startedB, this])
  omega

theorem spin_preserved {CAP : Nat} {c c2 : CConfig} (h : CStep CAP c c2)
    (hI : CInv c) {t m : Nat}
    (hget : c.th.get? t = some ⟨TPC.spinning, m⟩) :
    c2.th.get? t = some ⟨TPC.spinning, m⟩ := by
  cases h with
  | reserve u s hgu hpc =>
    by_cases hut : u = t
    · subst hut
      rw [hget] at hgu
      injection hgu with he
      rw [← he] at hpc
      simp at hpc
    · show (c.th.set u _).get? t = _
      rw [getq_set_ne _ c.th u t hut]
      exact hget
  | fieldWrite u s k hgu hpc hk =>
    by_cases hut : u = t
    · subst hut
      rw [hget] at hgu
      injection hgu with he
      rw [← he] at hpc
      simp at hpc
    · show (c.th.set u _).get? t = _
      rw [getq_set_ne _ c.th u t hut]
      exact hget
  | publishW u s hgu hpc =>
    by_cases hut : u = t
    · subst hut
      rw [hget] at hgu
      injection hgu with he
      rw [← he] at hpc
      simp at hpc
    · show (c.th.set u _).get? t = _
      rw [getq_set_ne _ c.th u t hut]
      exact hget
  | spinIter u s hgu hpc hlt => exact hget
  | spinExit u s hgu hpc hge =>
    exact absurd (spin_guard ⟨hI.1, hI.2⟩ hgu hpc) hge

theorem spinning_forever {CAP : Nat} {c0 : CConfig} (hI : CInv c0)
    {t m : Nat} (hget : c0.th.get? t = some ⟨TPC.spinning, m⟩) :
    ∀ c, Reaches CAP c0 c →
      CInv c ∧ c.th.get? t = some ⟨TPC.spinning, m⟩ := by
  intro c hr
  induction hr with
  | refl => exact ⟨hI, hget⟩
  | tail _ hs ih =>
    obtain ⟨hIb, hgb⟩ := ih
    exact ⟨CInv_step hs hIb, spin_preserved hs hIb hgb⟩

/-! Claim theorems. -/

/-- C1: the claim says the reserved index is checked against the
capacity before the record array is dereferenced, so a slot at an index
at or above the capacity is never written and at most `capacity` records
are ever written.  The code tests `nid > capacity` instead of
`nid >= capacity`: with capacity 4, five sequential calls on a zeroed
buffer all take the write branch; the fifth writes slot index 4 (equal
to the capacity, hence past the record array), no call busy-waits, and
five records are published. -/
theorem capacity_check_off_by_one :
    (seqRun 4 8 5 zBuffer).1.assertion_count = 5 ∧
    (seqRun 4 8 5 zBuffer).1.assertion_failure_written = 5 ∧
    DsaEvent.writeSlot 4 0 ∈ ((seqRun 4 8 5 zBuffer).2.map Prod.fst).flatten ∧
    (seqRun 4 8 5 zBuffer).2.map Prod.snd =
      [false, false, false, false, false] ∧
    ¬ 4 < 4 := by decide

/-- C2: the claim says that for a source whose terminator occurs before
index N-1, dstrcpy copies the source through and including the null
terminator, so the destination is null-terminated by the copy itself.
In the code the loop stops at the terminator without copying it and the
trailing `if` fires only when the bound was reached: with N = 8 and the
two-character source 104,105,0 over a destination of ones, the copied
characters land at indices 0 and 1 but index 2 keeps its old value 1,
so no null byte was written by the call. -/
theorem dstrcpy_terminator_not_copied :
    c2src 0 ≠ 0 ∧ c2src 1 ≠ 0 ∧ c2src 2 = 0 ∧ 2 < 8 - 1 ∧
    dstrcpy 8 c2dst c2src 0 = 104 ∧ dstrcpy 8 c2dst c2src 1 = 105 ∧
    dstrcpy 8 c2dst c2src 2 = 1 ∧ (1 : Nat) ≠ 0 := by decide

/-- C3: for a source with no null terminator among its first N-1
characters, dstrcpy copies exactly the N-1 characters at indices
0..N-2 and then writes a null byte at destination index 0, leaving all
destination bytes from index N-1 on untouched. -/
theorem dstrcpy_truncation_clears_to_empty (N : Nat) (dst src : Nat → Nat)
    (hN : 2 ≤ N) (hsrc : ∀ k, k < N - 1 → src k ≠ 0) :
    dstrcpy N dst src 0 = 0 ∧
    (∀ j, 1 ≤ j → j < N - 1 → dstrcpy N dst src j = src j) ∧
    (∀ j, N - 1 ≤ j → dstrcpy N dst src j = dst j) := by
  obtain ⟨h1, h2, h3, h4⟩ := copyLoopTr_no_nul src (N - 1) dst 0 [] []
    (fun k _ hk2 => hsrc k (by omega))
  have h1' : (dstrcpyRun N dst src).i = N - 1 := by
    show (copyLoopTr src dst 0 (N - 1) [] []).i = N - 1
    rw [h1]
    omega
  unfold dstrcpy
  rw [if_pos h1']
  refine ⟨Function.update_same 0 0 _, ?_, ?_⟩
  · intro j hj1 hj2
    rw [Function.update_noteq (by omega) 0 _]
    exact h3 j (by omega) (by omega)
  · intro j hj
    rw [Function.update_noteq (by omega) 0 _]
    exact h4 j (by omega)

theorem dstrcpy_truncation_clears_to_empty_witness :
    2 ≤ 8 ∧ (∀ k, k < 8 - 1 → c3src k ≠ 0) ∧
    (dstrcpy 8 c3dst c3src 0 = 0 ∧
     (∀ j, 1 ≤ j → j < 8 - 1 → dstrcpy 8 c3dst c3src j = c3src j) ∧
     (∀ j, 8 - 1 ≤ j → dstrcpy 8 c3dst c3src j = c3dst j)) :=
  ⟨by decide, fun k _ => (by decide : (1 : Nat) ≠ 0),
   dstrcpy_truncation_clears_to_empty 8 c3dst c3src (by decide)
     (fun k _ => (by decide : (1 : Nat) ≠ 0))⟩

/-- C4: the claim says that N calls on an initially zeroed buffer of
capacity C with N > C leave exactly C fully populated records and
assertion_failure_written equal to C, the other N-C calls writing
nothing.  Evaluating the code on the spec scenario (capacity 4, six
calls): the first five calls all take the write branch (slots 0..4, one
past the array) and publish, so assertion_failure_written ends at 5,
not 4; only the sixth call takes the overflow branch, and it hangs in
the busy-wait (spun = true) instead of returning. -/
theorem overflow_run_writes_capacity_plus_one :
    (seqRun 4 8 6 zBuffer).1.assertion_count = 6 ∧
    (seqRun 4 8 6 zBuffer).1.assertion_failure_written = 5 ∧
    (seqRun 4 8 6 zBuffer).2.map Prod.snd =
      [false, false, false, false, false, true] ∧
    (List.range 5).all
      (fun s => decide (DsaEvent.writeSlot s 0 ∈
        ((seqRun 4 8 6 zBuffer).2.map Prod.fst).flatten)) = true ∧
    ¬ (5 : Nat) = 4 := by decide

/-- C5: the claim says every execution of the overflow busy-wait
terminates.  In the concurrent model with capacity 4 and six threads,
the configuration c5mid (threads 0-4 hold slots 0-4, thread 5 reserved
index 5 and entered the spin) is reachable from the initial
configuration; and in every configuration reachable from c5mid, thread
5 is still spinning: the guard compares assertion_failure_written
(realised publication increments, at most one per thread on the write
path) with assertion_count (one per started thread, including the
spinner itself), so the guard stays true in every reachable
configuration and the exit step can never fire. -/
theorem busy_wait_never_terminates :
    Reaches 4 (initCfg 6) c5mid ∧
    c5mid.th.get? 5 = some ⟨TPC.spinning, 5⟩ ∧
    (∀ c, Reaches 4 c5mid c →
      c.th.get? 5 = some ⟨TPC.spinning, 5⟩ ∧
      c.assertion_failure_written < c.assertion_count) := by
  refine ⟨?_, by decide, ?_⟩
  · exact Reaches.tail (Reaches.tail (Reaches.tail (Reaches.tail (Reaches.tail
      (Reaches.tail (Reaches.refl (initCfg 6))
        (CStep.reserve (initCfg 6) 0 ⟨TPC.start, 0⟩ rfl rfl))
        (CStep.reserve _ 1 ⟨TPC.start, 0⟩ rfl rfl))
        (CStep.reserve _ 2 ⟨TPC.start, 0⟩ rfl rfl))
        (CStep.reserve _ 3 ⟨TPC.start, 0⟩ rfl rfl))
        (CStep.reserve _ 4 ⟨TPC.start, 0⟩ rfl rfl))
        (CStep.reserve _ 5 ⟨TPC.start, 0⟩ rfl rfl)
  · intro c hr
    have hI : CInv c5mid := ⟨by decide, by decide⟩
    obtain ⟨hIc, hgc⟩ := @spinning_forever 4 c5mid hI 5 5 (by decide) c hr
    exact ⟨hgc, spin_guard hIc hgc rfl⟩

/-- C6: on the in-capacity branch, the trace of one call contains
exactly one publication increment, that increment is the last event of
the call, and every one of the eleven record-field assignments of slot
nid (the three strings, the line number, the caller, and the three
block and three thread coordinates) occurs strictly before it. -/
theorem fields_written_before_publish (CAP N : Nat)
    (b : DeviceAssertionsData) (msg fn fnc : Nat → Nat) (ln : Int)
    (cal : Nat) (bid tid : Dim3) (h : ¬ CAP < b.assertion_count) :
    (dsa_add_new_assertion_failure CAP N (some b) msg fn fnc ln cal bid
        tid).trace.countP isIncWritten = 1 ∧
    (dsa_add_new_assertion_failure CAP N (some b) msg fn fnc ln cal bid
        tid).trace.getLast? =
      some (DsaEvent.incWritten b.assertion_failure_written) ∧
    (∀ f, f < 11 → DsaEvent.writeSlot b.assertion_count f ∈
      (dsa_add_new_assertion_failure CAP N (some b) msg fn fnc ln cal bid
        tid).trace.dropLast) := by
  simp only [dsa_add_new_assertion_failure, if_neg h]
  have hz : ((List.range 11).map
      (DsaEvent.writeSlot b.assertion_count)).countP isIncWritten = 0 := by
    rw [List.countP_eq_zero]
    intro a ha
    obtain ⟨f, _, rfl⟩ := List.mem_map.mp ha
    simp [isIncWritten]
  refine ⟨?_, ?_, ?_⟩
  · simp [List.countP_cons, List.countP_append, hz, isIncWritten]
  · rw [← List.cons_append, List.getLast?_concat]
  · intro f hf
    rw [← List.cons_append, List.dropLast_concat]
    exact List.mem_cons_of_mem _
      (List.mem_map.mpr ⟨f, List.mem_range.mpr hf, rfl⟩)

theorem fields_written_before_publish_witness :
    (¬ 4 < zBuffer.assertion_count) ∧
    ((dsa_add_new_assertion_failure 4 8 (some zBuffer) (fun _ => 0)
        (fun _ => 0) (fun _ => 0) 0 0 dim0
        dim0).trace.countP isIncWritten = 1 ∧
     (dsa_add_new_assertion_failure 4 8 (some zBuffer) (fun _ => 0)
        (fun _ => 0) (fun _ => 0) 0 0 dim0 dim0).trace.getLast? =
       some (DsaEvent.incWritten zBuffer.assertion_failure_written) ∧
     (∀ f, f < 11 → DsaEvent.writeSlot zBuffer.assertion_count f ∈
       (dsa_add_new_assertion_failure 4 8 (some zBuffer) (fun _ => 0)
         (fun _ => 0) (fun _ => 0) 0 0 dim0 dim0).trace.dropLast)) :=
  ⟨by decide, fields_written_before_publish 4 8 zBuffer (fun _ => 0)
    (fun _ => 0) (fun _ => 0) 0 0 dim0 dim0 (by decide)⟩

/-- C7: a call with a null buffer reference is a no-op: the state it
returns is the absent state it was given, it performs no event at all,
and it does not enter the busy-wait. -/
theorem null_buffer_noop (CAP N : Nat) (msg fn fnc : Nat → Nat)
    (ln : Int) (cal : Nat) (bid tid : Dim3) :
    dsa_add_new_assertion_failure CAP N none msg fn fnc ln cal bid tid =
      { state := none, trace := [], spun := false } := rfl

/-- C8: in the concurrent model, in every configuration reachable from
the initial n-thread configuration in which every thread has executed
its reservation, assertion_count equals exactly n, whatever the
schedule and however many reservations exceeded the capacity. -/
theorem assertion_count_equals_n (CAP n : Nat) (c : CConfig)
    (hr : Reaches CAP (initCfg n) c)
    (hall : ∀ s ∈ c.th, s.pc ≠ TPC.start) :
    c.assertion_count = n := by
  have hI := CInv_reaches (CInv_initCfg n) hr
  have hlen : c.th.length = n := by
    rw [Reaches_length hr]
    simp [initCfg]
  have hful : c.th.countP startedB = c.th.length :=
    List.countP_eq_length.mpr
      (fun a ha => by simp [startedB]; exact hall a ha)
  rw [hI.1, hful, hlen]

theorem assertion_count_equals_n_witness :
    (∀ s ∈ c8cfg.th, s.pc ≠ TPC.start) ∧ c8cfg.assertion_count = 2 :=
  ⟨by decide,
   assertion_count_equals_n 4 2 c8cfg
     (Reaches.tail (Reaches.tail (Reaches.refl (initCfg 2))
       (CStep.reserve (initCfg 2) 0 ⟨TPC.start, 0⟩ rfl rfl))
       (CStep.reserve _ 1 ⟨TPC.start, 0⟩ rfl rfl))
     (by decide)⟩

/-- C9: dstrcpy reads only source indices that are below N and that are
preceded by no null byte (so it never reads past the terminator nor
past index N-1); every destination index it records as written is below
N-1; and wherever the result differs from the original destination the
index is one of the recorded written indices or index 0 (the explicit
terminator write of the truncation path) -- so the call mutates nothing
but the destination, and always returns a result (it is a total
function, with no error path). -/
theorem dstrcpy_reads_writes_bounded (N : Nat) (dst src : Nat → Nat)
    (hN : 1 ≤ N) :
    (∀ r ∈ (dstrcpyRun N dst src).reads, r < N ∧ ∀ k, k < r → src k ≠ 0) ∧
    (∀ w ∈ (dstrcpyRun N dst src).ws, w < N - 1) ∧
    (∀ j, dstrcpy N dst src j ≠ dst j →
      j ∈ (dstrcpyRun N dst src).ws ∨ j = 0) := by
  refine ⟨?_, ?_, ?_⟩
  · intro r hr
    rcases copyLoopTr_reads src (N - 1) dst 0 [] [] r hr with h | ⟨_, h2, h3⟩
    · simp at h
    · exact ⟨by omega, fun k hk => h3 k (Nat.zero_le k) hk⟩
  · intro w hw
    rcases copyLoopTr_ws_bound src (N - 1) dst 0 [] [] w hw with h | ⟨_, h2⟩
    · simp at h
    · omega
  · intro j hj
    unfold dstrcpy at hj
    by_cases hc : (dstrcpyRun N dst src).i = N - 1
    · rw [if_pos hc] at hj
      by_cases hj0 : j = 0
      · exact Or.inr hj0
      · rw [Function.update_noteq hj0 0 _] at hj
        exact Or.inl (copyLoopTr_frame src (N - 1) dst 0 [] [] j hj)
    · rw [if_neg hc] at hj
      exact Or.inl (copyLoopTr_frame src (N - 1) dst 0 [] [] j hj)

theorem dstrcpy_reads_writes_bounded_witness :
    1 ≤ 8 ∧
    ((∀ r ∈ (dstrcpyRun 8 c2dst c2src).reads,
        r < 8 ∧ ∀ k, k < r → c2src k ≠ 0) ∧
     (∀ w ∈ (dstrcpyRun 8 c2dst c2src).ws, w < 8 - 1) ∧
     (∀ j, dstrcpy 8 c2dst c2src j ≠ c2dst j →
        j ∈ (dstrcpyRun 8 c2dst c2src).ws ∨ j = 0)) :=
  ⟨by decide, dstrcpy_reads_writes_bounded 8 c2dst c2src (by decide)⟩

/-- C10: on the overflow branch (reserved index above the capacity
test) the call leaves every record slot and assertion_failure_written
untouched: the resulting state is the input state with only
assertion_count incremented, and the only event in the trace is that
increment. -/
theorem overflow_branch_frame (CAP N : Nat) (b : DeviceAssertionsData)
    (msg fn fnc : Nat → Nat) (ln : Int) (cal : Nat) (bid tid : Dim3)
    (h : CAP < b.assertion_count) :
    (dsa_add_new_assertion_failure CAP N (some b) msg fn fnc ln cal bid
        tid).state =
      some { b with assertion_count := b.assertion_count + 1 } ∧
    (dsa_add_new_assertion_failure CAP N (some b) msg fn fnc ln cal bid
        tid).trace = [DsaEvent.incCount b.assertion_count] := by
  simp only [dsa_add_new_assertion_failure, if_pos h]
  simp

theorem overflow_branch_frame_witness :
    4 < b5Buffer.assertion_count ∧
    ((dsa_add_new_assertion_failure 4 8 (some b5Buffer) (fun _ => 0)
        (fun _ => 0) (fun _ => 0) 0 0 dim0 dim0).state =
      some { b5Buffer with assertion_count := b5Buffer.assertion_count + 1 } ∧
     (dsa_add_new_assertion_failure 4 8 (some b5Buffer) (fun _ => 0)
        (fun _ => 0) (fun _ => 0) 0 0 dim0 dim0).trace =
      [DsaEvent.incCount b5Buffer.assertion_count]) :=
  ⟨by decide, overflow_branch_frame 4 8 b5Buffer (fun _ => 0) (fun _ => 0)
    (fun _ => 0) 0 0 dim0 dim0 (by decide)⟩

end CUDADeviceAssertion
